import Mathlib

/-!
Verification development for the chatgpt_chat_visualizer repository.

The source is shallowly embedded: pure JavaScript functions become Lean
functions over explicit data; host facilities (the `marked` markdown
parser, locale date formatting, the IndexedDB store) are passed in as
oracle parameters, and the `try/catch` recovery of `renderMarkdown` is
modelled with `Except`.  Numbers that the code uses as epoch-second
timestamps are modelled as `Nat`; JavaScript falsiness of `0`,
`undefined` and `""` is modelled explicitly at each use site.
-/

namespace ChatVisualizer

/-- A displayed chat message, as produced by `processMessage` in the
parser (`src/js/main.js`): id, role, raw text content, creation
timestamp in epoch seconds (`0` when absent). -/
structure Msg where
  id : String
  role : String
  content : String
  createTime : Nat
deriving DecidableEq, Repr

/-- A content part of a raw export message: `some s` models a JavaScript
string part, `none` models any non-string part (these are filtered out
by `processMessage`). -/
abbrev Part := Option String

/-- The `message` field of a mapping node of the export file.  The
chain `message.content.parts` is collapsed into one optional field:
`parts = none` models a missing `content` or missing `parts`. -/
structure RawMessage where
  id : Option String
  authorRole : Option String
  parts : Option (List Part)
  isHidden : Bool
  createTime : Option Nat
deriving DecidableEq, Repr

/-- A node of `conversation.mapping`. -/
structure Node where
  id : String
  message : Option RawMessage
  parent : Option String
deriving DecidableEq, Repr

/-- A raw conversation of the export file, as consumed by
`extractMessages`: the id-keyed `mapping` object is modelled as an
association list. -/
structure RawConversation where
  title : String
  create_time : Nat
  mapping : List (String × Node)
  current_node : Option String
deriving DecidableEq, Repr

/-- JavaScript `String.prototype.trim`: strip leading and trailing
whitespace. -/
def jsTrim (s : String) : String :=
  String.mk (((s.toList.dropWhile Char.isWhitespace).reverse.dropWhile
    Char.isWhitespace).reverse)

/-- `isValidMessage` from `src/js/main.js` (parser section): a node is
kept when it has a message with content parts, its author role is not
`"system"`, its parts array is nonempty, and it is not marked as
visually hidden. -/
def isValidMessage (node : Node) : Bool :=
  match node.message with
  | none => false
  | some msg =>
    match msg.parts with
    | none => false
    | some parts =>
      if msg.authorRole = some "system" then false
      else if parts.length = 0 then false
      else if msg.isHidden then false
      else true

/-- `processMessage` from `src/js/main.js`: map the author role
(`assistant`/`tool` to `assistant`, `system` to `system`, anything
else — including a missing or empty role, which JavaScript's
`|| "unknown"` turns into `"unknown"` — to `user`), keep the string
parts whose trim is nonempty, join them with newlines, trim, and drop
the message when the resulting content is empty. -/
def processMessage (node : Node) : Option Msg :=
  match node.message with
  | none => none
  | some msg =>
    let authorRole := match msg.authorRole with
      | none => "unknown"
      | some r => if r = "" then "unknown" else r
    let role := if authorRole = "assistant" ∨ authorRole = "tool" then "assistant"
      else if authorRole = "system" then "system"
      else "user"
    let kept := (msg.parts.getD []).filterMap (fun p => match p with
      | some s => if jsTrim s = "" then none else some s
      | none => none)
    let content := jsTrim (String.intercalate "\n" kept)
    if content = "" then none
    else some {
      id := match msg.id with
        | none => node.id
        | some s => if s = "" then node.id else s
      role := role
      content := content
      createTime := msg.createTime.getD 0 }

/-- The message contributed by one mapping node during the walk of
`extractMessages`: the node passes `isValidMessage` and `processMessage`
returns a message (the `if (message)` guard). -/
def nodeMessage (node : Node) : Option Msg :=
  if isValidMessage node then processMessage node else none

/-- Lookup `conversation.mapping[id]`. -/
def findNode (mapping : List (String × Node)) (id : String) : Option Node :=
  (mapping.find? (fun p => p.1 == id)).map (·.2)

/-- The `while (currentNode != null)` walk of `extractMessages`,
made total with explicit fuel: one unit of fuel is one loop iteration,
and `none` is returned when fuel runs out before the parent chain does
(this is the embedding of nontermination).  Messages are accumulated
with `unshift`, so the parent side of the chain comes first, giving
root-to-leaf order. -/
def walkMessages (mapping : List (String × Node)) : Nat → Option String → Option (List Msg)
  | _, none => some []
  | 0, some _ => none
  | fuel + 1, some cur =>
    match findNode mapping cur with
    | none => some []
    | some node =>
      match walkMessages mapping fuel node.parent with
      | none => none
      | some rest => some (rest ++ (nodeMessage node).toList)

/-- One step of the parent chain followed by `extractMessages`: from a
current node id to its node's parent; `none` both when the chain ends
(`null`) and when the id has no node in the mapping (`if (!node) break`). -/
def stepParent (mapping : List (String × Node)) : Option String → Option String
  | none => none
  | some cur =>
    match findNode mapping cur with
    | none => none
    | some node => node.parent

/-- `n`-fold iteration of `stepParent`. -/
def stepIter (mapping : List (String × Node)) : Nat → Option String → Option String
  | 0, o => o
  | n + 1, o => stepIter mapping n (stepParent mapping o)

/-- The ids of the mapping nodes actually visited (looked up and found)
by the walk, in visit order (leaf to root), with the same fuel
discipline as `walkMessages`. -/
def chainIds (mapping : List (String × Node)) : Nat → Option String → List String
  | _, none => []
  | 0, some _ => []
  | fuel + 1, some cur =>
    match findNode mapping cur with
    | none => []
    | some node => cur :: chainIds mapping fuel node.parent

/-- One merge of `mergeConsecutiveMessages`: append the next message's
content, preceded by a newline only when the accumulated content is
nonempty (`currentMergedMsg.content ? "\n" : ""`), and keep the larger
creation timestamp. -/
def mergeStep (acc next : Msg) : Msg :=
  { acc with
    content := acc.content ++ (if acc.content = "" then "" else "\n") ++ next.content
    createTime := max acc.createTime next.createTime }

/-- The `for` loop of `mergeConsecutiveMessages`, with the current
merged message as accumulator. -/
def mergeLoop (acc : Msg) : List Msg → List Msg
  | [] => [acc]
  | next :: rest =>
    if next.role = acc.role then mergeLoop (mergeStep acc next) rest
    else acc :: mergeLoop next rest

/-- `mergeConsecutiveMessages` from `src/js/main.js`: merge maximal runs
of consecutive same-role messages. -/
def mergeConsecutiveMessages : List Msg → List Msg
  | [] => []
  | m :: rest => mergeLoop m rest

/-- `extractMessages` from `src/js/main.js`: walk the parent chain from
`current_node` and merge consecutive same-role messages. -/
def extractMessages (fuel : Nat) (conv : RawConversation) : Option (List Msg) :=
  (walkMessages conv.mapping fuel conv.current_node).map mergeConsecutiveMessages

/-- The per-conversation fields set by `processConversationsData` in
`src/js/main.js`. -/
structure ProcessedConv where
  messages : List Msg
  messageCount : Nat
  userMessageCount : Nat
  assistantMessageCount : Nat
deriving DecidableEq, Repr

/-- The per-conversation body of `processConversationsData`: extract the
messages and derive the counts.  `none` models the conversation whose
extraction does not complete (the walk runs out of fuel). -/
def processConversation (fuel : Nat) (conv : RawConversation) : Option ProcessedConv :=
  match extractMessages fuel conv with
  | none => none
  | some messages =>
    some {
      messages := messages
      messageCount := messages.length
      userMessageCount := (messages.filter (fun m => m.role = "user")).length
      assistantMessageCount := (messages.filter (fun m => m.role = "assistant")).length }

/-! ## `src/js/ui.js` — rendering -/

/-- `escapeHtml` from `src/js/ui.js`: the browser's
`div.textContent = text; div.innerHTML` round trip, which escapes `&`,
`<` and `>`. -/
def escapeHtml (text : String) : String :=
  String.join (text.toList.map (fun c =>
    if c = '&' then "&amp;"
    else if c = '<' then "&lt;"
    else if c = '>' then "&gt;"
    else String.singleton c))

/-- The global replace `text.replace(/\n\s*\n/g, "\n\n")` used in
`renderMarkdown`, on a character list.  At each newline the greedy
`\s*` consumes as many whitespace characters as possible such that a
newline follows, i.e. up to the last newline inside the maximal
whitespace run that follows. -/
def normalizeBlankRunsAux : Nat → List Char → List Char
  | _, [] => []
  | 0, l => l
  | fuel + 1, c :: rest =>
    if c = '\n' then
      let run := rest.takeWhile Char.isWhitespace
      match (run.reverse.findIdx? (· = '\n')).map (fun k => run.length - 1 - k) with
      | some j => '\n' :: '\n' :: normalizeBlankRunsAux fuel (rest.drop (j + 1))
      | none => c :: normalizeBlankRunsAux fuel rest
    else c :: normalizeBlankRunsAux fuel rest

/-- `text.replace(/\n\s*\n/g, "\n\n")` on strings.  The scan consumes at
least one character per step, so `text.length` steps always suffice. -/
def normalizeBlankRuns (text : String) : String :=
  String.mk (normalizeBlankRunsAux text.toList.length text.toList)

/-- `renderMarkdown` from `src/js/ui.js`.  The host's `marked` library
is an oracle: `none` models `typeof marked === "undefined"`, and
`some parse` models a parser whose exceptions are `Except.error`.  The
`try/catch` recovers a thrown conversion by returning the HTML-escaped
original text; the same fallback is used when `marked` is unavailable. -/
def renderMarkdown (marked : Option (String → Except String String)) (text : String) : String :=
  match marked with
  | some parse =>
    match parse (normalizeBlankRuns text) with
    | Except.ok html => html
    | Except.error _ => escapeHtml text
  | none => escapeHtml text

/-- `formatDate` from `src/js/ui.js`: `0` (JavaScript falsy) yields the
fixed unknown-time string, otherwise the host's locale formatting,
modelled as an oracle. -/
def formatDate (locale : Nat → String) (timestamp : Nat) : String :=
  if timestamp = 0 then "未知时间" else locale timestamp

/-- The template literal of `UIManager.renderMessage` in `src/js/ui.js`,
as a function of the already-converted content markup. -/
def fragmentUi (locale : Nat → String) (msg : Msg) (contentHtml : String) : String :=
  "\n      <div class=\"message " ++ msg.role ++ "\" data-message-id=\"" ++ msg.id ++
  "\">\n        <div class=\"message-author\">" ++
  (if msg.role = "user" then "You" else "Agent") ++
  "</div>\n        <div class=\"message-content\">" ++ contentHtml ++
  "</div>\n        <div class=\"message-time\">\n          " ++
  formatDate locale msg.createTime ++
  "\n        </div>\n      </div>\n    "

/-- `UIManager.renderMessage` from `src/js/ui.js`: convert the raw
content with `renderMarkdown` and wrap it in the message template. -/
def renderMessage (marked : Option (String → Except String String))
    (locale : Nat → String) (msg : Msg) : String :=
  fragmentUi locale msg (renderMarkdown marked msg.content)

/-- JavaScript `Array.prototype.join("")`: concatenation. -/
def joinAll : List String → String
  | [] => ""
  | s :: rest => s ++ joinAll rest

/-- The per-message display fragments produced by one call of
`UIManager.displayConversation`: `messages.map((msg) => this.renderMessage(msg))`. -/
def displayFragments (marked : Option (String → Except String String))
    (locale : Nat → String) (messages : List Msg) : List String :=
  messages.map (renderMessage marked locale)

/-- The `innerHTML` string built by one call of
`UIManager.displayConversation`: the fragments joined with `""`. -/
def displayHtml (marked : Option (String → Except String String))
    (locale : Nat → String) (messages : List Msg) : String :=
  joinAll (displayFragments marked locale messages)

/-- A stored conversation as returned by `ChatDatabase.getConversation`
and consumed by `UIManager.displayConversation`. -/
structure Conv where
  id : String
  title : String
  create_time : Nat
  messages : List Msg
deriving DecidableEq, Repr

/-- The observable output of `UIManager.displayConversation`: the title
text, the container's `innerHTML`, and the reset scroll position. -/
structure DisplayResult where
  title : String
  html : String
  scrollTop : Nat
deriving DecidableEq, Repr

/-- `UIManager.displayConversation` from `src/js/ui.js`: set the title,
render every message in one synchronous pass, set `innerHTML`, reset
scroll. -/
def displayConversation (marked : Option (String → Except String String))
    (locale : Nat → String) (conv : Conv) : DisplayResult :=
  { title := conv.title
    html := displayHtml marked locale conv.messages
    scrollTop := 0 }

/-- The view state of `UIManager` touched by `selectConversation`. -/
structure UIState where
  currentConversation : Option Conv
  displayed : Option DisplayResult
  allConversations : List Conv
  filteredConversations : List Conv
deriving DecidableEq, Repr

/-- The outcome of one `UIManager.selectConversation` call: the new view
state, the ids looked up in the persistent store (in order), and the
store error, if its promise rejected. -/
structure SelectOutcome where
  state : UIState
  lookups : List String
  storeError : Option String
deriving DecidableEq, Repr

/-- `UIManager.selectConversation` from `src/js/ui.js`.  The persistent
store is an oracle returning `Except.error` for a rejected lookup and
`Except.ok none` for a missing conversation (`if (!conversation)
return;`).  Exactly one lookup is issued; on error or miss the state is
returned unchanged. -/
def selectConversation (store : String → Except String (Option Conv))
    (marked : Option (String → Except String String)) (locale : Nat → String)
    (st : UIState) (id : String) : SelectOutcome :=
  match store id with
  | Except.error e => { state := st, lookups := [id], storeError := some e }
  | Except.ok none => { state := st, lookups := [id], storeError := none }
  | Except.ok (some conv) =>
    { state := { st with
        currentConversation := some conv
        displayed := some (displayConversation marked locale conv) }
      lookups := [id]
      storeError := none }

/-- `renderMarkdown` with an explicit count of the conversions it
performs: the function body attempts exactly one conversion of its
input, unconditionally (there is no cache lookup or pending-set check
anywhere in `renderMessage`/`renderMarkdown`). -/
def renderMarkdownCounted (marked : Option (String → Except String String))
    (text : String) : String × Nat :=
  (renderMarkdown marked text, 1)

/-- `UIManager.renderMessage` with its conversion count. -/
def renderMessageCounted (marked : Option (String → Except String String))
    (locale : Nat → String) (msg : Msg) : String × Nat :=
  let converted := renderMarkdownCounted marked msg.content
  (fragmentUi locale msg converted.1, converted.2)

/-- Total number of markdown conversions performed when a list of render
requests is processed by `renderMessage`. -/
def conversionsDispatched (marked : Option (String → Except String String))
    (locale : Nat → String) (requests : List Msg) : Nat :=
  (requests.map (fun m => (renderMessageCounted marked locale m).2)).sum

/-! ## `src/unnamed/part_000` — the ui.js variant that escapes
user-authored structural markdown -/

/-- Space or tab, the character class `[ \t]` of the escaping regexes. -/
def isSpaceTab (c : Char) : Bool := c = ' ' || c = '\t'

/-- One line of `text.replace(/^([ \t]*)(#+)([ \t]|$)/gm, '$1\\$2$3')`:
a backslash is inserted before a leading run of `#` that is followed by
a space, a tab, or the end of the line. -/
def escHeadLine (l : List Char) : List Char :=
  let ws := l.takeWhile isSpaceTab
  let afterWs := l.dropWhile isSpaceTab
  let hashes := afterWs.takeWhile (· = '#')
  let afterHashes := afterWs.dropWhile (· = '#')
  if hashes.isEmpty then l
  else
    match afterHashes with
    | [] => ws ++ '\\' :: hashes
    | c :: _ => if isSpaceTab c then ws ++ '\\' :: (hashes ++ afterHashes) else l

/-- One line of `text.replace(/^([ \t]*)(-) +/gm, '$1\\- ')`: a leading
`-` followed by at least one space becomes `\- ` (the run of spaces
collapses to one). -/
def escDashLine (l : List Char) : List Char :=
  let ws := l.takeWhile isSpaceTab
  let afterWs := l.dropWhile isSpaceTab
  match afterWs with
  | '-' :: t =>
    if (t.takeWhile (· = ' ')).isEmpty then l
    else ws ++ '\\' :: '-' :: ' ' :: t.dropWhile (· = ' ')
  | _ => l

/-- One line of the third replace,
`text.replace` of the pattern `^(---+|===+)$` with a zero-width space
(U+200B) prepended to the match: a line that is entirely three or more
`-` or three or more `=` is prefixed with a zero-width space. -/
def escHrLine (l : List Char) : List Char :=
  if (3 ≤ l.length && l.all (· = '-')) || (3 ≤ l.length && l.all (· = '=')) then
    '\u200B' :: l
  else l

/-- Split a character list at newlines (the line structure seen by the
`m` regex flag). -/
def splitLines : List Char → List (List Char)
  | [] => [[]]
  | c :: rest =>
    if c = '\n' then [] :: splitLines rest
    else
      match splitLines rest with
      | [] => [[c]]
      | l :: ls => (c :: l) :: ls

/-- Rejoin lines with newlines. -/
def joinLines : List (List Char) → List Char
  | [] => []
  | [l] => l
  | l :: ls => l ++ '\n' :: joinLines ls

/-- `escapeUserMessageHeadingsAndLists` from `src/unnamed/part_000`:
`if (!text) return text;` then the three global multiline replaces in
order.  Each replace is line-local and preserves line boundaries, so
the composition acts line by line. -/
def escapeUserMessageHeadingsAndLists (text : String) : String :=
  if text = "" then text
  else String.mk (joinLines
    ((splitLines text.toList).map (fun l => escHrLine (escDashLine (escHeadLine l)))))

/-- The template literal of `UIManager.renderMessage` in
`src/unnamed/part_000` (no author line), as a function of the
already-converted content markup. -/
def fragmentP0 (locale : Nat → String) (msg : Msg) (contentHtml : String) : String :=
  "\n      <div class=\"message " ++ msg.role ++ "\" data-message-id=\"" ++ msg.id ++
  "\">\n        <div class=\"message-content\">" ++ contentHtml ++
  "</div>\n        <div class=\"message-time\">\n          " ++
  formatDate locale msg.createTime ++
  "\n        </div>\n      </div>\n    "

/-- `UIManager.renderMessage` from `src/unnamed/part_000`: user messages
have their structural markdown escaped before conversion, all other
roles are converted as-is. -/
def renderMessageP0 (marked : Option (String → Except String String))
    (locale : Nat → String) (msg : Msg) : String :=
  fragmentP0 locale msg
    (if msg.role = "user" then
      renderMarkdown marked (escapeUserMessageHeadingsAndLists msg.content)
    else renderMarkdown marked msg.content)

/-! ## Spec-side definitions, used only to compare the code against the
wording of claims -/

/-- Modelled from the spec's words for claim C10: the "newline-joined
concatenation" of a list of contents. -/
def nlJoin : List String → String
  | [] => ""
  | [s] => s
  | s :: rest => s ++ "\n" ++ nlJoin rest

/-- Accumulate the current maximal run (head `h`, tail so far `run`)
while splitting a message list into runs of consecutive same-role
messages. -/
def runsLoop (h : Msg) (run : List Msg) : List Msg → List (Msg × List Msg)
  | [] => [(h, run)]
  | x :: rest =>
    if x.role = h.role then runsLoop h (run ++ [x]) rest
    else (h, run) :: runsLoop x [] rest

/-- The maximal runs of consecutive same-role messages, each returned as
head and tail. -/
def runsBy : List Msg → List (Msg × List Msg)
  | [] => []
  | m :: t => runsLoop m [] t

/-- The content produced by folding `mergeStep` over a run: newline
separators are inserted only once the accumulated content is nonempty. -/
def joinContents (first : String) (rest : List String) : String :=
  rest.foldl (fun acc s => acc ++ (if acc = "" then "" else "\n") ++ s) first

/-- The closed form of one merged run: the head message with the run's
contents joined and the run's maximal creation timestamp. -/
def mergeRunSpec (h : Msg) (r : List Msg) : Msg :=
  { h with
    content := joinContents h.content (r.map (·.content))
    createTime := (r.map (·.createTime)).foldl max h.createTime }

/-! ## Helper lemmas -/

lemma joinAll_append (l₁ l₂ : List String) :
    joinAll (l₁ ++ l₂) = joinAll l₁ ++ joinAll l₂ := by
  induction l₁ with
  | nil => simp [joinAll]
  | cons s rest ih => simp [joinAll, ih, String.append_assoc]

lemma sum_map_one {α : Type} (l : List α) : (l.map (fun _ => (1 : Nat))).sum = l.length := by
  induction l with
  | nil => rfl
  | cons x rest ih =>
    simp [ih]
    omega

/-! ## Claim C1 -/

/-- C1, as stated, is false: the renderer does not build slices of tens
of items per step.  One call of `UIManager.displayConversation` on a
200-message conversation materializes all 200 display fragments in a
single synchronous pass, exceeding any fixed slice size in the tens. -/
theorem claim_C1_counterexample :
    (displayFragments none (fun _ => "") (List.replicate 200 ⟨"m", "user", "hi", 0⟩)).length = 200 ∧
    ¬ (displayFragments none (fun _ => "") (List.replicate 200 ⟨"m", "user", "hi", 0⟩)).length ≤ 99 := by
  constructor
  · rw [displayFragments, List.length_map, List.length_replicate]
  · rw [displayFragments, List.length_map, List.length_replicate]
    omega

/-- C1 (amended): `UIManager.displayConversation` materializes the whole
message list in one synchronous pass — the single `innerHTML` string it
builds already contains the rendered fragment of every message of the
conversation; there is no slicing, no yielding, and no idle-time
scheduling. -/
theorem claim_C1_amended_single_pass (marked : Option (String → Except String String))
    (locale : Nat → String) (messages : List Msg) (m : Msg) (hm : m ∈ messages) :
    ∃ pre post, displayHtml marked locale messages =
      pre ++ renderMessage marked locale m ++ post := by
  obtain ⟨s, t, rfl⟩ := List.append_of_mem hm
  refine ⟨joinAll (displayFragments marked locale s),
    joinAll (displayFragments marked locale t), ?_⟩
  simp [displayHtml, displayFragments, List.map_append, joinAll_append, joinAll,
    String.append_assoc]

/-- Witness for C1 (amended) at a concrete one-message conversation. -/
theorem claim_C1_amended_witness :
    ∃ pre post, displayHtml none (fun _ => "") [⟨"a", "user", "hi", 0⟩] =
      pre ++ renderMessage none (fun _ => "") ⟨"a", "user", "hi", 0⟩ ++ post :=
  claim_C1_amended_single_pass none (fun _ => "") [⟨"a", "user", "hi", 0⟩]
    ⟨"a", "user", "hi", 0⟩ (by simp)

/-! ## Claim C2 -/

/-- C2, as stated, is false: there is no VirtualWindow and no
message-count threshold.  For a conversation with 81 messages the
display materializes all 81 fragments — not a proper sub-window with
spacers standing in for the rest. -/
theorem claim_C2_counterexample :
    (displayFragments none (fun _ => "") (List.replicate 81 ⟨"m", "user", "hi", 0⟩)).length = 81 ∧
    ¬ (displayFragments none (fun _ => "") (List.replicate 81 ⟨"m", "user", "hi", 0⟩)).length < 81 := by
  constructor
  · rw [displayFragments, List.length_map, List.length_replicate]
  · rw [displayFragments, List.length_map, List.length_replicate]
    omega

/-- C2 (amended): display is threshold-free — for every conversation,
whatever its size, `UIManager.displayConversation` materializes exactly
one fragment per message; conversations with 79 and with 81 messages
receive identical full materialization. -/
theorem claim_C2_amended_no_threshold (marked : Option (String → Except String String))
    (locale : Nat → String) (messages : List Msg) (m : Msg) :
    (displayFragments marked locale messages).length = messages.length ∧
    (displayFragments marked locale (List.replicate 79 m)).length = 79 ∧
    (displayFragments marked locale (List.replicate 81 m)).length = 81 := by
  refine ⟨?_, ?_, ?_⟩ <;> rw [displayFragments, List.length_map]
  · rw [List.length_replicate]
  · rw [List.length_replicate]

/-! ## Claim C3 -/

/-- C3, as stated, is false: there is no cache and no pending-set, so
requesting the render of the same `(id, text)` message twice dispatches
two markdown conversions, not at most one. -/
theorem claim_C3_counterexample :
    conversionsDispatched none (fun _ => "")
      [⟨"a", "user", "hi", 0⟩, ⟨"a", "user", "hi", 0⟩] = 2 ∧
    ¬ conversionsDispatched none (fun _ => "")
      [⟨"a", "user", "hi", 0⟩, ⟨"a", "user", "hi", 0⟩] ≤ 1 := by
  constructor
  · rfl
  · decide

/-- C3 (amended): conversion is synchronous and memoless — processing a
list of render requests dispatches exactly one conversion per request
(duplicates included), and a repeated request yields the identical
markup because `renderMessage` is a pure function of the message. -/
theorem claim_C3_amended_no_dedup (marked : Option (String → Except String String))
    (locale : Nat → String) (requests : List Msg) :
    conversionsDispatched marked locale requests = requests.length ∧
    ∀ m : Msg, (renderMessageCounted marked locale m).1 = renderMessage marked locale m := by
  constructor
  · rw [conversionsDispatched]
    have : (fun m => (renderMessageCounted marked locale m).2) = fun _ : Msg => (1 : Nat) := rfl
    rw [this, sum_map_one]
  · intro m
    rfl

/-! ## Claim C4 -/

/-- C4: `renderMarkdown` is total and recovers conversion failure
locally.  With the `marked` oracle present, a successful parse is
returned as-is; a parse that throws is caught and the HTML-escaped raw
input text is returned instead, so no exception reaches the caller; when
`marked` is unavailable the same escaped fallback is returned. -/
theorem claim_C4_renderMarkdown_total (parse : String → Except String String) (text : String) :
    (∀ e, parse (normalizeBlankRuns text) = Except.error e →
      renderMarkdown (some parse) text = escapeHtml text) ∧
    (∀ html, parse (normalizeBlankRuns text) = Except.ok html →
      renderMarkdown (some parse) text = html) ∧
    renderMarkdown none text = escapeHtml text := by
  refine ⟨fun e he => ?_, fun html hh => ?_, rfl⟩
  · rw [renderMarkdown, he]
  · rw [renderMarkdown, hh]

/-- Witness for C4 at a parser that always throws: the fallback is the
HTML-escaped raw text. -/
theorem claim_C4_witness :
    renderMarkdown (some (fun _ => Except.error "boom")) "a&b" = escapeHtml "a&b" ∧
    escapeHtml "a&b" = "a&amp;b" :=
  ⟨(claim_C4_renderMarkdown_total (fun _ => Except.error "boom") "a&b").1 "boom" rfl,
   by decide⟩

/-! ## Claim C5 -/

/-- C5: when the persistent-store lookup for the selected id rejects or
returns nothing, `UIManager.selectConversation` leaves the whole view
state unchanged — `currentConversation`, the displayed conversation and
both conversation lists keep their previous values — and issues exactly
one store lookup, never a retry. -/
theorem claim_C5_select_failure_atomic (store : String → Except String (Option Conv))
    (marked : Option (String → Except String String)) (locale : Nat → String)
    (st : UIState) (id : String)
    (h : (∃ e, store id = Except.error e) ∨ store id = Except.ok none) :
    (selectConversation store marked locale st id).state = st ∧
    (selectConversation store marked locale st id).state.currentConversation =
      st.currentConversation ∧
    (selectConversation store marked locale st id).state.displayed = st.displayed ∧
    (selectConversation store marked locale st id).state.allConversations =
      st.allConversations ∧
    (selectConversation store marked locale st id).state.filteredConversations =
      st.filteredConversations ∧
    (selectConversation store marked locale st id).lookups = [id] := by
  obtain ⟨e, he⟩ | he := h <;> simp [selectConversation, he]

/-- Witness for C5 at a store that finds nothing. -/
theorem claim_C5_witness :
    (selectConversation (fun _ => Except.ok none) none (fun _ => "")
      ⟨none, none, [], []⟩ "c1").state = ⟨none, none, [], []⟩ ∧
    (selectConversation (fun _ => Except.ok none) none (fun _ => "")
      ⟨none, none, [], []⟩ "c1").lookups = ["c1"] :=
  ⟨(claim_C5_select_failure_atomic (fun _ => Except.ok none) none (fun _ => "")
      ⟨none, none, [], []⟩ "c1" (Or.inr rfl)).1,
   (claim_C5_select_failure_atomic (fun _ => Except.ok none) none (fun _ => "")
      ⟨none, none, [], []⟩ "c1" (Or.inr rfl)).2.2.2.2.2⟩

/-! ## Claim C6 -/

/-- C6: display order equals canonical order.  One call of
`UIManager.displayConversation` produces exactly one fragment per
message; the fragment at position `i` is `renderMessage` of the `i`-th
message — a pure function of that message alone, so the content at each
position is fixed regardless of any processing order — and each
fragment carries its message's id and converted content.  (Conversion
is synchronous in the code, so there is no asynchronous completion
order to vary.) -/
theorem claim_C6_display_order (marked : Option (String → Except String String))
    (locale : Nat → String) (messages : List Msg) :
    (displayFragments marked locale messages).length = messages.length ∧
    (∀ i : Nat, (displayFragments marked locale messages)[i]? =
      (messages[i]?).map (renderMessage marked locale)) ∧
    (∀ m : Msg, ∃ pre mid post, renderMessage marked locale m =
      pre ++ m.id ++ mid ++ renderMarkdown marked m.content ++ post) := by
  refine ⟨by rw [displayFragments, List.length_map],
    fun i => by rw [displayFragments, List.getElem?_map], fun m => ?_⟩
  refine ⟨"\n      <div class=\"message " ++ m.role ++ "\" data-message-id=\"",
    "\">\n        <div class=\"message-author\">" ++
      (if m.role = "user" then "You" else "Agent") ++
      "</div>\n        <div class=\"message-content\">",
    "</div>\n        <div class=\"message-time\">\n          " ++
      formatDate locale m.createTime ++ "\n        </div>\n      </div>\n    ", ?_⟩
  simp [renderMessage, fragmentUi, String.append_assoc]

/-! ## Claim C7 -/

lemma takeWhile_all_append {p : Char → Bool} {xs : List Char} (ys : List Char)
    (h : ∀ c ∈ xs, p c = true) :
    (xs ++ ys).takeWhile p = xs ++ ys.takeWhile p := by
  induction xs with
  | nil => simp
  | cons a l ih =>
    have ha := h a (by simp)
    simp [List.takeWhile_cons, ha, ih (fun c hc => h c (by simp [hc]))]

lemma dropWhile_all_append {p : Char → Bool} {xs : List Char} (ys : List Char)
    (h : ∀ c ∈ xs, p c = true) :
    (xs ++ ys).dropWhile p = ys.dropWhile p := by
  induction xs with
  | nil => simp
  | cons a l ih =>
    have ha := h a (by simp)
    simp [List.dropWhile_cons, ha, ih (fun c hc => h c (by simp [hc]))]

/-- The first escaping replace on a matching line: optional spaces and
tabs, a nonempty run of `#`, then a space, a tab or the end of the line
— the replace inserts a backslash before the `#` run. -/
lemma escHeadLine_match (ws hs rest : List Char)
    (hws : ∀ c ∈ ws, isSpaceTab c = true)
    (hhs : hs ≠ []) (hall : ∀ c ∈ hs, c = '#')
    (hrest : rest = [] ∨ ∃ c t, rest = c :: t ∧ isSpaceTab c = true) :
    escHeadLine (ws ++ hs ++ rest) = ws ++ '\\' :: (hs ++ rest) := by
  obtain ⟨h0, hs', rfl⟩ : ∃ h0 hs', hs = h0 :: hs' := by
    cases hs with
    | nil => exact absurd rfl hhs
    | cons h0 hs' => exact ⟨h0, hs', rfl⟩
  have hh0 : h0 = '#' := hall h0 (by simp)
  subst hh0
  have hnotst : isSpaceTab '#' = false := rfl
  have hrest_take : rest.takeWhile (fun c => c = '#') = [] := by
    rcases hrest with rfl | ⟨c, t, rfl, hct⟩
    · rfl
    · have : c ≠ '#' := by
        intro hc
        rw [hc] at hct
        exact absurd hct (by decide)
      simp [List.takeWhile_cons, this]
  have hrest_drop : rest.dropWhile (fun c => c = '#') = rest := by
    rcases hrest with rfl | ⟨c, t, rfl, hct⟩
    · rfl
    · have : c ≠ '#' := by
        intro hc
        rw [hc] at hct
        exact absurd hct (by decide)
      simp [List.dropWhile_cons, this]
  have htake : (ws ++ ('#' :: hs') ++ rest).takeWhile isSpaceTab = ws := by
    rw [List.append_assoc, takeWhile_all_append _ hws]
    simp [List.takeWhile_cons, hnotst]
  have hdrop : (ws ++ ('#' :: hs') ++ rest).dropWhile isSpaceTab = ('#' :: hs') ++ rest := by
    rw [List.append_assoc, dropWhile_all_append _ hws]
    simp [List.dropWhile_cons, hnotst]
  have hhashtake : (('#' :: hs') ++ rest).takeWhile (fun c => c = '#') = '#' :: hs' := by
    rw [takeWhile_all_append rest (fun c hc => by simp [hall c (by simp [hc])]), hrest_take]
    simp
  have hhashdrop : (('#' :: hs') ++ rest).dropWhile (fun c => c = '#') = rest := by
    rw [dropWhile_all_append rest (fun c hc => by simp [hall c (by simp [hc])]), hrest_drop]
  rw [escHeadLine]
  simp only [htake, hdrop, hhashtake, hhashdrop]
  rcases hrest with rfl | ⟨c, t, rfl, hct⟩
  · simp
  · simp [hct]

/-- The second escaping replace on a matching line: optional spaces and
tabs, a `-`, then at least one space — the replace yields the escaped
`\- ` with the space run collapsed. -/
lemma escDashLine_match (ws t : List Char) (hws : ∀ c ∈ ws, isSpaceTab c = true) :
    escDashLine (ws ++ '-' :: ' ' :: t) = ws ++ '\\' :: '-' :: ' ' :: t.dropWhile (· = ' ') := by
  have hnotst : isSpaceTab '-' = false := rfl
  have htake : (ws ++ '-' :: ' ' :: t).takeWhile isSpaceTab = ws := by
    rw [takeWhile_all_append _ hws]
    simp [List.takeWhile_cons, hnotst]
  have hdrop : (ws ++ '-' :: ' ' :: t).dropWhile isSpaceTab = '-' :: ' ' :: t := by
    rw [dropWhile_all_append _ hws]
    simp [List.dropWhile_cons, hnotst]
  rw [escDashLine]
  simp only [htake, hdrop]
  simp [List.takeWhile_cons, List.dropWhile_cons]

/-- C7: in `src/unnamed/part_000`, user messages have their structural
markdown escaped before conversion and assistant messages are converted
as-is: a leading `#` run followed by a space, tab or line end gets a
backslash; a leading `-` followed by spaces becomes `\- `; a line that
is entirely `---`/`===` is neutralized with a zero-width space; in
particular the user text `"# Hi"` is converted as `"\# Hi"`, not as a
heading line. -/
theorem claim_C7_user_escaping (marked : Option (String → Except String String))
    (locale : Nat → String) (msg : Msg) :
    (msg.role = "user" → renderMessageP0 marked locale msg =
      fragmentP0 locale msg
        (renderMarkdown marked (escapeUserMessageHeadingsAndLists msg.content))) ∧
    (msg.role = "assistant" → renderMessageP0 marked locale msg =
      fragmentP0 locale msg (renderMarkdown marked msg.content)) ∧
    (∀ ws hs rest, (∀ c ∈ ws, isSpaceTab c = true) → hs ≠ [] → (∀ c ∈ hs, c = '#') →
      (rest = [] ∨ ∃ c t, rest = c :: t ∧ isSpaceTab c = true) →
      escHeadLine (ws ++ hs ++ rest) = ws ++ '\\' :: (hs ++ rest)) ∧
    (∀ ws t, (∀ c ∈ ws, isSpaceTab c = true) →
      escDashLine (ws ++ '-' :: ' ' :: t) =
        ws ++ '\\' :: '-' :: ' ' :: t.dropWhile (· = ' ')) ∧
    escapeUserMessageHeadingsAndLists "# Hi" = "\\# Hi" ∧
    escapeUserMessageHeadingsAndLists "- a" = "\\- a" ∧
    escapeUserMessageHeadingsAndLists "---" = "\u200B---" ∧
    escapeUserMessageHeadingsAndLists "===" = "\u200B===" := by
  refine ⟨fun h => ?_, fun h => ?_, escHeadLine_match, escDashLine_match,
    by decide, by decide, by decide, by decide⟩
  · rw [renderMessageP0, if_pos h]
  · rw [renderMessageP0, if_neg (by rw [h]; decide)]

/-- Witness for C7 at the spec's scenario message `"# Hi"` and at a
concrete line for each escaping lemma. -/
theorem claim_C7_witness :
    renderMessageP0 none (fun _ => "") ⟨"a", "user", "# Hi", 1000⟩ =
      fragmentP0 (fun _ => "") ⟨"a", "user", "# Hi", 1000⟩
        (renderMarkdown none (escapeUserMessageHeadingsAndLists "# Hi")) ∧
    escHeadLine ([' '] ++ ['#', '#'] ++ [' ', 'x']) =
      [' '] ++ '\\' :: (['#', '#'] ++ [' ', 'x']) ∧
    escDashLine ([] ++ '-' :: ' ' :: [' ', 'y']) =
      [] ++ '\\' :: '-' :: ' ' :: ([' ', 'y'].dropWhile (· = ' ')) :=
  ⟨(claim_C7_user_escaping none (fun _ => "") ⟨"a", "user", "# Hi", 1000⟩).1 rfl,
   (claim_C7_user_escaping none (fun _ => "") ⟨"a", "user", "# Hi", 1000⟩).2.2.1
     [' '] ['#', '#'] [' ', 'x'] (by decide) (by decide) (by decide)
     (Or.inr ⟨' ', ['x'], rfl, by decide⟩),
   (claim_C7_user_escaping none (fun _ => "") ⟨"a", "user", "# Hi", 1000⟩).2.2.2.1
     [] [' ', 'y'] (by decide)⟩

/-! ## Claim C8 -/

/-- Every message produced by a valid node has role `"user"` or
`"assistant"`: `isValidMessage` rejects author role `"system"`, and
`processMessage` maps every other author role to one of the two. -/
lemma nodeMessage_role (node : Node) (m : Msg) (h : nodeMessage node = some m) :
    m.role = "user" ∨ m.role = "assistant" := by
  rw [nodeMessage] at h
  by_cases hv : isValidMessage node = true
  · rw [if_pos hv] at h
    cases hmsg : node.message with
    | none => rw [processMessage, hmsg] at h; exact absurd h (by simp)
    | some msg =>
      rw [isValidMessage] at hv
      simp only [hmsg] at hv
      cases hparts : msg.parts with
      | none =>
        simp only [hparts] at hv
        exact absurd hv (by decide)
      | some parts =>
        simp only [hparts] at hv
        have hsys : ¬ msg.authorRole = some "system" := by
          intro hs
          rw [if_pos hs] at hv
          exact absurd hv (by simp)
        rw [processMessage, hmsg] at h
        simp only at h
        split at h
        · exact absurd h (by simp)
        · rename_i hcontent
          have hrole := congrArg Msg.role (Option.some.inj h)
          simp only at hrole
          rw [← hrole]
          set A := (match msg.authorRole with
            | none => "unknown"
            | some r => if r = "" then "unknown" else r) with hA
          by_cases h1 : A = "assistant" ∨ A = "tool"
          · rw [if_pos h1]
            right
            rfl
          · rw [if_neg h1]
            have h2 : ¬ A = "system" := by
              intro h2
              apply hsys
              rw [hA] at h2
              cases har : msg.authorRole with
              | none =>
                simp only [har] at h2
                exact absurd h2 (by decide)
              | some r =>
                simp only [har] at h2
                by_cases hr : r = ""
                · rw [if_pos hr] at h2
                  exact absurd h2 (by decide)
                · rw [if_neg hr] at h2
                  rw [h2]
            rw [if_neg h2]
            left
            rfl
  · rw [if_neg hv] at h
    exact absurd h (by simp)

/-- Every message collected by the parent-chain walk has role `"user"`
or `"assistant"`. -/
lemma walkMessages_roles (mapping : List (String × Node)) :
    ∀ (fuel : Nat) (start : Option String) (msgs : List Msg),
      walkMessages mapping fuel start = some msgs →
      ∀ m ∈ msgs, m.role = "user" ∨ m.role = "assistant" := by
  intro fuel
  induction fuel with
  | zero =>
    intro start msgs h
    cases start with
    | none =>
      rw [walkMessages] at h
      cases h
      simp
    | some cur => exact absurd h (by rw [walkMessages]; simp)
  | succ fuel ih =>
    intro start msgs h
    cases start with
    | none =>
      rw [walkMessages] at h
      cases h
      simp
    | some cur =>
      rw [walkMessages] at h
      cases hf : findNode mapping cur with
      | none =>
        simp only [hf] at h
        cases h
        simp
      | some node =>
        simp only [hf] at h
        cases hw : walkMessages mapping fuel node.parent with
        | none =>
          simp only [hw] at h
          exact absurd h (by simp)
        | some rest =>
          simp only [hw, Option.some.injEq] at h
          subst h
          intro m hm
          rcases List.mem_append.mp hm with hrest | hcur
          · exact ih node.parent rest hw m hrest
          · cases hnm : nodeMessage node with
            | none => rw [hnm] at hcur; exact absurd hcur (by simp [Option.toList])
            | some m' =>
              rw [hnm] at hcur
              have : m = m' := by simpa [Option.toList] using hcur
              subst this
              exact nodeMessage_role node m hnm

/-- `mergeStep` keeps the accumulator's role. -/
lemma mergeStep_role (acc next : Msg) : (mergeStep acc next).role = acc.role := rfl

/-- Every role appearing in the output of the merge loop already appears
among the accumulator and the input. -/
lemma mergeLoop_roles (P : String → Prop) :
    ∀ (l : List Msg) (acc : Msg), P acc.role → (∀ m ∈ l, P m.role) →
      ∀ m ∈ mergeLoop acc l, P m.role := by
  intro l
  induction l with
  | nil =>
    intro acc hacc _ m hm
    rw [mergeLoop] at hm
    simp at hm
    rw [hm]
    exact hacc
  | cons x rest ih =>
    intro acc hacc hl m hm
    rw [mergeLoop] at hm
    split at hm
    · exact ih (mergeStep acc x) (by rw [mergeStep_role]; exact hacc)
        (fun m' hm' => hl m' (by simp [hm'])) m hm
    · rcases List.mem_cons.mp hm with rfl | hm'
      · exact hacc
      · exact ih x (hl x (by simp)) (fun m' hm' => hl m' (by simp [hm'])) m hm'

/-- Every role in the output of `mergeConsecutiveMessages` already
appears in the input. -/
lemma mergeConsecutiveMessages_roles (P : String → Prop) (l : List Msg)
    (hl : ∀ m ∈ l, P m.role) :
    ∀ m ∈ mergeConsecutiveMessages l, P m.role := by
  cases l with
  | nil => intro m hm; exact absurd hm (by rw [mergeConsecutiveMessages]; simp)
  | cons x rest =>
    rw [mergeConsecutiveMessages]
    exact mergeLoop_roles P rest x (hl x (by simp)) (fun m hm => hl m (by simp [hm]))

/-- Counting a list by two mutually exclusive, jointly exhaustive role
predicates partitions its length. -/
lemma length_filter_role_partition (l : List Msg)
    (h : ∀ m ∈ l, m.role = "user" ∨ m.role = "assistant") :
    (l.filter (fun m => m.role = "user")).length +
      (l.filter (fun m => m.role = "assistant")).length = l.length := by
  induction l with
  | nil => rfl
  | cons x rest ih =>
    have hx := h x (by simp)
    have ih' := ih (fun m hm => h m (by simp [hm]))
    rcases hx with hx | hx <;>
      simp [List.filter_cons, hx] <;> omega

/-- C8: for every successfully processed conversation, the derived
counts agree with the extracted message list — `messageCount` is its
length, the per-role counts are the lengths of the corresponding
filters, every extracted message has role `"user"` or `"assistant"`
(system and hidden messages were filtered out, `"tool"` mapped to
assistant and unknown authors to user), and therefore the two role
counts sum to the total. -/
theorem claim_C8_counts (fuel : Nat) (conv : RawConversation) (pc : ProcessedConv)
    (h : processConversation fuel conv = some pc) :
    pc.messageCount = pc.messages.length ∧
    pc.userMessageCount = (pc.messages.filter (fun m => m.role = "user")).length ∧
    pc.assistantMessageCount =
      (pc.messages.filter (fun m => m.role = "assistant")).length ∧
    (∀ m ∈ pc.messages, m.role = "user" ∨ m.role = "assistant") ∧
    pc.userMessageCount + pc.assistantMessageCount = pc.messageCount := by
  rw [processConversation, extractMessages] at h
  cases hw : walkMessages conv.mapping fuel conv.current_node with
  | none =>
    simp only [hw, Option.map_none'] at h
    exact absurd h (by simp)
  | some raw =>
    simp only [hw, Option.map_some', Option.some.injEq] at h
    subst h
    have hroles : ∀ m ∈ mergeConsecutiveMessages raw,
        m.role = "user" ∨ m.role = "assistant" :=
      mergeConsecutiveMessages_roles (fun r => r = "user" ∨ r = "assistant") raw
        (walkMessages_roles conv.mapping fuel conv.current_node raw hw)
    exact ⟨rfl, rfl, rfl, hroles, length_filter_role_partition _ hroles⟩

/-- The root node of the C8 witness conversation. -/
def nodeW1 : Node :=
  { id := "n1"
    message := some { id := some "m1", authorRole := some "user", parts := some [some "hi"], isHidden := false, createTime := some 10 }
    parent := none }

/-- The leaf node of the C8 witness conversation. -/
def nodeW2 : Node :=
  { id := "n2"
    message := some { id := some "m2", authorRole := some "assistant", parts := some [some "yo"], isHidden := false, createTime := some 20 }
    parent := some "n1" }

/-- A concrete two-node conversation for the C8 witness: a user message
on the root node, an assistant message on the leaf. -/
def convW8 : RawConversation :=
  { title := "t"
    create_time := 5
    mapping := [("n1", nodeW1), ("n2", nodeW2)]
    current_node := some "n2" }

/-- The processed form of `convW8`. -/
def pcW8 : ProcessedConv :=
  { messages := [⟨"m1", "user", "hi", 10⟩, ⟨"m2", "assistant", "yo", 20⟩]
    messageCount := 2
    userMessageCount := 1
    assistantMessageCount := 1 }

/-- Witness for C8 at the concrete conversation `convW8`. -/
theorem claim_C8_witness :
    pcW8.userMessageCount + pcW8.assistantMessageCount = pcW8.messageCount ∧
    pcW8.messageCount = pcW8.messages.length :=
  ⟨(claim_C8_counts 3 convW8 pcW8 (by decide)).2.2.2.2,
   (claim_C8_counts 3 convW8 pcW8 (by decide)).1⟩

/-! ## Claim C9 -/

lemma stepIter_none_absorbing (mapping : List (String × Node)) (n : Nat) :
    stepIter mapping n none = none := by
  induction n with
  | zero => rfl
  | succ n ih => rw [stepIter, stepParent]; exact ih

lemma stepIter_add (mapping : List (String × Node)) (a b : Nat) (x : Option String) :
    stepIter mapping (a + b) x = stepIter mapping a (stepIter mapping b x) := by
  induction b generalizing x with
  | zero => rfl
  | succ b ih => rw [stepIter, ← Nat.add_assoc, stepIter, ih]

lemma stepIter_absorb (mapping : List (String × Node)) (n m : Nat) (x : Option String)
    (h : stepIter mapping n x = none) (hnm : n ≤ m) : stepIter mapping m x = none := by
  obtain ⟨k, rfl⟩ := Nat.le.dest hnm
  rw [Nat.add_comm, stepIter_add, h, stepIter_none_absorbing]

lemma stepIter_periodic (mapping : List (String × Node)) (p : Nat) (x : Option String)
    (h : stepIter mapping p x = x) : ∀ t, stepIter mapping (t * p) x = x := by
  intro t
  induction t with
  | zero =>
    rw [Nat.zero_mul]
    rfl
  | succ t ih =>
    rw [Nat.succ_mul, stepIter_add, h]
    exact ih

/-- Every id in the visited chain is reached by some iterate of
`stepParent` strictly below the fuel. -/
lemma chainIds_mem (mapping : List (String × Node)) :
    ∀ (fuel : Nat) (start : Option String) (id : String),
      id ∈ chainIds mapping fuel start →
      ∃ k, k < fuel ∧ stepIter mapping k start = some id := by
  intro fuel
  induction fuel with
  | zero =>
    intro start id h
    cases start <;> rw [chainIds] at h <;> exact absurd h (by simp)
  | succ fuel ih =>
    intro start id h
    cases start with
    | none => rw [chainIds] at h; exact absurd h (by simp)
    | some cur =>
      rw [chainIds] at h
      cases hf : findNode mapping cur with
      | none =>
        simp only [hf] at h
        exact absurd h (by simp)
      | some node =>
        simp only [hf] at h
        rcases List.mem_cons.mp h with rfl | htail
        · exact ⟨0, Nat.succ_pos fuel, rfl⟩
        · obtain ⟨k, hk, hit⟩ := ih node.parent id htail
          refine ⟨k + 1, Nat.succ_lt_succ hk, ?_⟩
          have hstep : stepParent mapping (some cur) = node.parent := by
            rw [stepParent, hf]
          calc stepIter mapping (k + 1) (some cur)
              = stepIter mapping k (stepParent mapping (some cur)) := by rw [stepIter]
            _ = stepIter mapping k node.parent := by rw [hstep]
            _ = some id := hit

/-- When the parent chain dies out within `n` steps, the walk visits no
mapping node twice: a repeat would make `stepParent` periodic on a
non-`none` value, contradicting that its iterates reach `none`. -/
lemma chainIds_nodup (mapping : List (String × Node)) :
    ∀ (n : Nat) (start : Option String), stepIter mapping n start = none →
      (chainIds mapping n start).Nodup := by
  intro n
  induction n with
  | zero =>
    intro start _
    cases start <;> rw [chainIds] <;> simp
  | succ n ih =>
    intro start h
    cases start with
    | none => rw [chainIds]; simp
    | some cur =>
      rw [chainIds]
      cases hf : findNode mapping cur with
      | none => simp
      | some node =>
        simp only
        have hstep : stepParent mapping (some cur) = node.parent := by
          rw [stepParent, hf]
        have h' : stepIter mapping n node.parent = none := by
          rw [← hstep, ← stepIter]
          exact h
        refine List.nodup_cons.mpr ⟨?_, ih node.parent h'⟩
        intro hmem
        obtain ⟨k, _, hit⟩ := chainIds_mem mapping n node.parent cur hmem
        have hcyc : stepIter mapping (k + 1) (some cur) = some cur := by
          rw [stepIter, hstep]
          exact hit
        have hper := stepIter_periodic mapping (k + 1) (some cur) hcyc (n + 1)
        have hle : n + 1 ≤ (n + 1) * (k + 1) :=
          Nat.le_mul_of_pos_right (n + 1) (Nat.succ_pos k)
        have habs := stepIter_absorb mapping (n + 1) ((n + 1) * (k + 1)) (some cur) h hle
        rw [hper] at habs
        exact Option.noConfusion habs

/-- Main walk lemma: once the parent chain reaches `none` within `n`
steps, any fuel of at least `n` completes the walk, the visited chain is
fuel-independent, and the collected messages are exactly the valid
messages of the visited chain in reverse (root-to-leaf) order. -/
lemma walkMessages_complete (mapping : List (String × Node)) :
    ∀ (n : Nat) (start : Option String), stepIter mapping n start = none →
      ∀ fuel, n ≤ fuel →
        walkMessages mapping fuel start = some (((chainIds mapping n start).filterMap
          (fun id => (findNode mapping id).bind nodeMessage)).reverse) ∧
        chainIds mapping fuel start = chainIds mapping n start := by
  intro n
  induction n with
  | zero =>
    intro start h fuel _
    have hstart : start = none := h
    subst hstart
    cases fuel <;> exact ⟨rfl, rfl⟩
  | succ n ih =>
    intro start h fuel hf
    cases start with
    | none =>
      cases fuel <;> exact ⟨rfl, rfl⟩
    | some cur =>
      obtain ⟨fuel', rfl⟩ : ∃ fuel', fuel = fuel' + 1 := by
        cases fuel with
        | zero => exact absurd hf (by omega)
        | succ fuel' => exact ⟨fuel', rfl⟩
      have hf' : n ≤ fuel' := by omega
      cases hfind : findNode mapping cur with
      | none =>
        constructor
        · rw [walkMessages]
          simp only [hfind]
          rw [chainIds]
          simp only [hfind]
          rfl
        · rw [chainIds, chainIds]
          simp only [hfind]
      | some node =>
        have hstep : stepParent mapping (some cur) = node.parent := by
          rw [stepParent, hfind]
        have h' : stepIter mapping n node.parent = none := by
          rw [← hstep, ← stepIter]
          exact h
        obtain ⟨hwalk, hchain⟩ := ih node.parent h' fuel' hf'
        constructor
        · rw [walkMessages]
          simp only [hfind, hwalk]
          rw [chainIds]
          simp only [hfind]
          rw [List.filterMap_cons]
          simp only [hfind, Option.bind_some]
          cases hnm : nodeMessage node with
          | none => simp [hnm]
          | some m => simp [hnm]
        · rw [chainIds, chainIds]
          simp only [hfind, hchain]

/-- C9: `extractMessages` terminates on every conversation whose parent
chain from `current_node` is finite and acyclic (its `stepParent`
iterates reach `none` within `n` steps): with any fuel of at least `n`
the walk completes and is independent of the extra fuel (a single
pass), the visited mapping nodes are pairwise distinct (each node is
visited at most once), the walk returns the chain's valid messages in
root-to-leaf order (the reverse of the leaf-to-root visit order), and
`extractMessages` returns their consecutive-role merge. -/
theorem claim_C9_extract_terminates (conv : RawConversation) (n : Nat)
    (h : stepIter conv.mapping n conv.current_node = none)
    (fuel : Nat) (hf : n ≤ fuel) :
    walkMessages conv.mapping fuel conv.current_node =
      some (((chainIds conv.mapping n conv.current_node).filterMap
        (fun id => (findNode conv.mapping id).bind nodeMessage)).reverse) ∧
    walkMessages conv.mapping fuel conv.current_node =
      walkMessages conv.mapping n conv.current_node ∧
    (chainIds conv.mapping n conv.current_node).Nodup ∧
    chainIds conv.mapping fuel conv.current_node =
      chainIds conv.mapping n conv.current_node ∧
    extractMessages fuel conv =
      some (mergeConsecutiveMessages
        (((chainIds conv.mapping n conv.current_node).filterMap
          (fun id => (findNode conv.mapping id).bind nodeMessage)).reverse)) := by
  obtain ⟨hwalk, hchain⟩ := walkMessages_complete conv.mapping n conv.current_node h fuel hf
  obtain ⟨hwalkn, _⟩ := walkMessages_complete conv.mapping n conv.current_node h n (Nat.le_refl n)
  refine ⟨hwalk, by rw [hwalk, hwalkn], chainIds_nodup conv.mapping n conv.current_node h,
    hchain, ?_⟩
  rw [extractMessages, hwalk, Option.map_some']

/-- A concrete two-node conversation for the C9 witness (same shape as
`convW8` but its own definition, with distinct ids). -/
def convW9 : RawConversation :=
  { title := "t9"
    create_time := 7
    mapping :=
      [("r", { id := "r", message := some { id := some "mr", authorRole := some "user", parts := some [some "q"], isHidden := false, createTime := some 1 }, parent := none }),
       ("l", { id := "l", message := some { id := some "ml", authorRole := some "assistant", parts := some [some "a"], isHidden := false, createTime := some 2 }, parent := some "r" })]
    current_node := some "l" }

/-- Witness for C9 at the concrete conversation `convW9`, with chain
length 2 (hypothesis discharged at `n = 2`) and extra fuel 5. -/
theorem claim_C9_witness :
    walkMessages convW9.mapping 5 convW9.current_node =
      walkMessages convW9.mapping 2 convW9.current_node ∧
    (chainIds convW9.mapping 2 convW9.current_node).Nodup :=
  ⟨(claim_C9_extract_terminates convW9 2 (by decide) 5 (by omega)).2.1,
   (claim_C9_extract_terminates convW9 2 (by decide) 5 (by omega)).2.2.1⟩

/-! ## Claim C10 -/

lemma append_nl_ne_empty (a s : String) : a ++ "\n" ++ s ≠ "" := by
  intro h
  have hlen := congrArg String.length h
  have h1 : ("\n" : String).length = 1 := rfl
  have h0 : ("" : String).length = 0 := rfl
  rw [String.length_append, String.length_append, h1, h0] at hlen
  omega

lemma joinContents_cons (a s : String) (l : List String) :
    joinContents a (s :: l) = joinContents (a ++ (if a = "" then "" else "\n") ++ s) l := rfl

/-- Once the accumulated content is nonempty, the merge fold is a plain
newline join. -/
lemma joinContents_nonempty (l : List String) :
    ∀ a : String, a ≠ "" → joinContents a l = nlJoin (a :: l) := by
  induction l with
  | nil => intro a _; rfl
  | cons s l ih =>
    intro a ha
    rw [joinContents_cons, if_neg ha, ih (a ++ "\n" ++ s) (append_nl_ne_empty a s)]
    cases l with
    | nil => rfl
    | cons s2 l2 => simp [nlJoin, String.append_assoc]

/-- The merge fold equals the newline join of the contents with their
maximal all-empty prefix removed. -/
lemma joinContents_eq_nlJoin (rest : List String) :
    ∀ first : String, joinContents first rest =
      nlJoin ((first :: rest).dropWhile (· = "")) := by
  induction rest with
  | nil =>
    intro first
    by_cases h : first = ""
    · subst h
      rfl
    · simp [joinContents, List.dropWhile, h, nlJoin]
  | cons s l ih =>
    intro first
    by_cases h : first = ""
    · subst h
      have hstep : joinContents "" (s :: l) = joinContents s l := by
        rw [joinContents_cons, if_pos rfl]
        have : ("" : String) ++ "" ++ s = s := by simp
        rw [this]
      rw [hstep, ih s]
      have : (("" :: s :: l).dropWhile (· = "")) = ((s :: l).dropWhile (· = "")) := by
        simp [List.dropWhile_cons]
      rw [this]
    · rw [joinContents_nonempty (s :: l) first h]
      have : ((first :: s :: l).dropWhile (· = "")) = first :: s :: l := by
        simp [List.dropWhile_cons, h]
      rw [this]

lemma foldl_max_le_self (l : List Nat) : ∀ a : Nat, a ≤ l.foldl max a := by
  induction l with
  | nil => intro a; exact Nat.le_refl a
  | cons x l ih => intro a; exact Nat.le_trans (Nat.le_max_left a x) (ih (max a x))

lemma foldl_max_le_mem (l : List Nat) : ∀ a : Nat, ∀ x ∈ l, x ≤ l.foldl max a := by
  induction l with
  | nil => intro a x hx; exact absurd hx (by simp)
  | cons y l ih =>
    intro a x hx
    rcases List.mem_cons.mp hx with rfl | hx'
    · exact Nat.le_trans (Nat.le_max_right a x) (foldl_max_le_self l (max a x))
    · exact ih (max a y) x hx'

lemma foldl_max_mem (l : List Nat) : ∀ a : Nat, l.foldl max a = a ∨ l.foldl max a ∈ l := by
  induction l with
  | nil => intro a; exact Or.inl rfl
  | cons x l ih =>
    intro a
    rcases ih (max a x) with h | h
    · rcases max_choice a x with hm | hm
      · exact Or.inl (by rw [List.foldl_cons, h, hm])
      · exact Or.inr (by rw [List.foldl_cons, h, hm]; simp)
    · exact Or.inr (by simp [List.foldl_cons, h])

lemma foldl_mergeStep_role (run : List Msg) : ∀ h : Msg, (run.foldl mergeStep h).role = h.role := by
  induction run with
  | nil => intro h; rfl
  | cons x run ih => intro h; exact ih (mergeStep h x)

/-- The merge loop over a run prefix equals the run-splitting loop with
the merge fold applied to each run. -/
lemma mergeLoop_eq_runsLoop (rest : List Msg) :
    ∀ (h : Msg) (run : List Msg),
      mergeLoop (run.foldl mergeStep h) rest =
        (runsLoop h run rest).map (fun p => p.2.foldl mergeStep p.1) := by
  induction rest with
  | nil => intro h run; simp [mergeLoop, runsLoop]
  | cons x rest ih =>
    intro h run
    rw [mergeLoop, runsLoop, foldl_mergeStep_role]
    by_cases hc : x.role = h.role
    · rw [if_pos hc, if_pos hc]
      have hfold : mergeStep (run.foldl mergeStep h) x = (run ++ [x]).foldl mergeStep h := by
        rw [List.foldl_append]
        rfl
      rw [hfold]
      exact ih h (run ++ [x])
    · rw [if_neg hc, if_neg hc, List.map_cons]
      exact congrArg _ (ih x [])

/-- `mergeConsecutiveMessages` merges exactly the maximal same-role
runs. -/
lemma mergeConsecutiveMessages_eq_runs (l : List Msg) :
    mergeConsecutiveMessages l = (runsBy l).map (fun p => p.2.foldl mergeStep p.1) := by
  cases l with
  | nil => rfl
  | cons m t =>
    rw [mergeConsecutiveMessages, runsBy]
    exact mergeLoop_eq_runsLoop t m []

/-- Closed form of the merge fold over one run: contents joined with the
conditional separator, creation timestamp folded with `max`. -/
lemma foldl_mergeStep_spec (run : List Msg) : ∀ h : Msg, run.foldl mergeStep h = mergeRunSpec h run := by
  induction run with
  | nil => intro h; rfl
  | cons x run ih =>
    intro h
    rw [List.foldl_cons, ih (mergeStep h x)]
    rfl

lemma runsLoop_flatten (rest : List Msg) :
    ∀ (h : Msg) (run : List Msg),
      ((runsLoop h run rest).map (fun p => p.1 :: p.2)).flatten = h :: (run ++ rest) := by
  induction rest with
  | nil => intro h run; simp [runsLoop]
  | cons x rest ih =>
    intro h run
    rw [runsLoop]
    by_cases hc : x.role = h.role
    · rw [if_pos hc, ih h (run ++ [x])]
      simp
    · rw [if_neg hc]
      simp only [List.map_cons, List.flatten_cons]
      rw [ih x []]
      simp

lemma runsLoop_head_fst (rest : List Msg) :
    ∀ (h : Msg) (run : List Msg), ((runsLoop h run rest).head?).map (·.1) = some h := by
  induction rest with
  | nil => intro h run; rfl
  | cons x rest ih =>
    intro h run
    rw [runsLoop]
    by_cases hc : x.role = h.role
    · rw [if_pos hc]
      exact ih h (run ++ [x])
    · rw [if_neg hc]
      rfl

lemma runsLoop_chain (rest : List Msg) :
    ∀ (h : Msg) (run : List Msg),
      List.Chain' (fun p q => p.1.role ≠ q.1.role) (runsLoop h run rest) := by
  induction rest with
  | nil => intro h run; simp [runsLoop]
  | cons x rest ih =>
    intro h run
    rw [runsLoop]
    by_cases hc : x.role = h.role
    · rw [if_pos hc]
      exact ih h (run ++ [x])
    · rw [if_neg hc]
      refine List.chain'_cons'.mpr ⟨?_, ih x []⟩
      intro q hq
      have hfst := runsLoop_head_fst rest x []
      rw [hq] at hfst
      have : q.1 = x := by simpa using hfst
      rw [this]
      exact fun he => hc he.symm

lemma runsLoop_runs_role (rest : List Msg) :
    ∀ (h : Msg) (run : List Msg), (∀ y ∈ run, y.role = h.role) →
      ∀ p ∈ runsLoop h run rest, ∀ y ∈ p.2, y.role = p.1.role := by
  induction rest with
  | nil =>
    intro h run hrun p hp y hy
    rw [runsLoop] at hp
    have : p = (h, run) := by simpa using hp
    subst this
    exact hrun y hy
  | cons x rest ih =>
    intro h run hrun p hp y hy
    rw [runsLoop] at hp
    by_cases hc : x.role = h.role
    · rw [if_pos hc] at hp
      refine ih h (run ++ [x]) ?_ p hp y hy
      intro z hz
      rcases List.mem_append.mp hz with hz' | hz'
      · exact hrun z hz'
      · have : z = x := by simpa using hz'
        rw [this]
        exact hc
    · rw [if_neg hc] at hp
      rcases List.mem_cons.mp hp with rfl | hp'
      · exact hrun y hy
      · exact ih x [] (by simp) p hp' y hy

/-- C10, as stated, is false on empty contents: merging two same-role
messages whose first content is empty yields content `"x"`, while the
newline-joined concatenation of the run's contents `["", "x"]` would be
`"\nx"` — the code inserts the separator only when the accumulated
content is nonempty. -/
theorem claim_C10_counterexample :
    mergeConsecutiveMessages [⟨"a", "user", "", 0⟩, ⟨"b", "user", "x", 5⟩] =
      [⟨"a", "user", "x", 5⟩] ∧
    nlJoin ["", "x"] = "\nx" ∧
    ("x" : String) ≠ "\nx" := by
  refine ⟨by decide, by decide, by decide⟩

/-- C10 (amended): the output of `mergeConsecutiveMessages` has no two
adjacent messages of the same role; it is exactly one merged message per
maximal run of consecutive same-role input messages (the runs partition
the input in order, each run is same-role, adjacent runs differ in
role); each merged message keeps the run head's id and role, its content
is the newline-joined concatenation of the run's contents after the
leading empty contents are dropped (equal to the plain newline join
whenever the contents are nonempty), and its `createTime` is the maximum
`createTime` occurring in the run. -/
theorem claim_C10_amended_merge_runs (l : List Msg) :
    List.Chain' (fun a b => a.role ≠ b.role) (mergeConsecutiveMessages l) ∧
    mergeConsecutiveMessages l = (runsBy l).map (fun p => mergeRunSpec p.1 p.2) ∧
    ((runsBy l).map (fun p => p.1 :: p.2)).flatten = l ∧
    (∀ p ∈ runsBy l, ∀ y ∈ p.2, y.role = p.1.role) ∧
    List.Chain' (fun p q => p.1.role ≠ q.1.role) (runsBy l) ∧
    (∀ p ∈ runsBy l,
      (mergeRunSpec p.1 p.2).role = p.1.role ∧
      (mergeRunSpec p.1 p.2).id = p.1.id ∧
      (mergeRunSpec p.1 p.2).content =
        nlJoin ((p.1.content :: p.2.map (·.content)).dropWhile (· = "")) ∧
      (∀ y ∈ p.1 :: p.2, y.createTime ≤ (mergeRunSpec p.1 p.2).createTime) ∧
      ((mergeRunSpec p.1 p.2).createTime = p.1.createTime ∨
        (mergeRunSpec p.1 p.2).createTime ∈ p.2.map (·.createTime))) := by
  have hfun : (fun p : Msg × List Msg => p.2.foldl mergeStep p.1) =
      fun p : Msg × List Msg => mergeRunSpec p.1 p.2 :=
    funext fun p => foldl_mergeStep_spec p.2 p.1
  have hmerge : mergeConsecutiveMessages l = (runsBy l).map (fun p => mergeRunSpec p.1 p.2) := by
    rw [mergeConsecutiveMessages_eq_runs, hfun]
  refine ⟨?_, hmerge, ?_, ?_, ?_, ?_⟩
  · rw [hmerge]
    have hchain : List.Chain' (fun p q => p.1.role ≠ q.1.role) (runsBy l) := by
      cases l with
      | nil => simp [runsBy]
      | cons m t => exact runsLoop_chain t m []
    rw [List.chain'_map]
    exact hchain.imp (fun a b hab => by
      show (mergeRunSpec a.1 a.2).role ≠ (mergeRunSpec b.1 b.2).role
      have ha : (mergeRunSpec a.1 a.2).role = a.1.role := rfl
      have hb : (mergeRunSpec b.1 b.2).role = b.1.role := rfl
      rw [ha, hb]
      exact hab)
  · cases l with
    | nil => rfl
    | cons m t =>
      rw [runsBy, runsLoop_flatten t m []]
      rfl
  · cases l with
    | nil => intro p hp; exact absurd hp (by simp [runsBy])
    | cons m t =>
      rw [runsBy]
      exact runsLoop_runs_role t m [] (by simp)
  · cases l with
    | nil => simp [runsBy]
    | cons m t => exact runsLoop_chain t m []
  · intro p _
    refine ⟨rfl, rfl, ?_, ?_, ?_⟩
    · have : (mergeRunSpec p.1 p.2).content = joinContents p.1.content (p.2.map (·.content)) := rfl
      rw [this, joinContents_eq_nlJoin]
    · intro y hy
      rcases List.mem_cons.mp hy with rfl | hy'
      · exact foldl_max_le_self (p.2.map (·.createTime)) p.1.createTime
      · exact foldl_max_le_mem (p.2.map (·.createTime)) p.1.createTime y.createTime
          (List.mem_map_of_mem _ hy')
    · exact foldl_max_mem (p.2.map (·.createTime)) p.1.createTime

/-- Witness for C10 (amended) at a concrete three-message list whose
first run is two user messages. -/
theorem claim_C10_witness :
    (mergeRunSpec ⟨"a", "user", "p", 1⟩ [⟨"b", "user", "q", 3⟩]).content =
      nlJoin ((Msg.content ⟨"a", "user", "p", 1⟩ ::
        [(⟨"b", "user", "q", 3⟩ : Msg)].map (·.content)).dropWhile (· = "")) ∧
    List.Chain' (fun a b : Msg => a.role ≠ b.role)
      (mergeConsecutiveMessages
        [⟨"a", "user", "p", 1⟩, ⟨"b", "user", "q", 3⟩, ⟨"c", "assistant", "r", 2⟩]) :=
  ⟨((claim_C10_amended_merge_runs
      [⟨"a", "user", "p", 1⟩, ⟨"b", "user", "q", 3⟩, ⟨"c", "assistant", "r", 2⟩]).2.2.2.2.2
      (⟨"a", "user", "p", 1⟩, [⟨"b", "user", "q", 3⟩]) (by decide)).2.2.1,
   (claim_C10_amended_merge_runs
      [⟨"a", "user", "p", 1⟩, ⟨"b", "user", "q", 3⟩, ⟨"c", "assistant", "r", 2⟩]).1⟩

end ChatVisualizer
